import Mathlib

/-!
Verification of `mkcharlist.py` (ubrowse): the script reads the UnicodeData
line stream, extracts codepoint records (filtering control categories and
expanding `<label, first>` / `<label, last>` ranges), folds all names into a
single deduplicated string heap (longest names first, reusing leftmost exact
occurrences), and emits the table as C source text.

The embedding below translates the Python source directly.  Strings are
`List Char`; Python exceptions become `Except PyErr`; Python's `str.find`
becomes `findSub` returning `Option Nat`.
-/

namespace Mkcharlist

/-- Errors with which the Python script can die: `ValueError` (unpacking a
short line, `int(_, 16)` on a non-hex field), `IndexError` (`flags[0]`,
`flags[1]`, `name[0]`, `charlist[-1]` out of range) and `AttributeError`
(`m.group(1)` when the range regex did not match). -/
inductive PyErr where
  | valueErr
  | indexErr
  | attrErr
deriving DecidableEq

instance {ε α : Type} [DecidableEq ε] [DecidableEq α] : DecidableEq (Except ε α) := fun a b =>
  match a, b with
  | Except.ok x, Except.ok y =>
    if h : x = y then isTrue (by rw [h]) else isFalse (by intro hc; cases hc; exact h rfl)
  | Except.error x, Except.error y =>
    if h : x = y then isTrue (by rw [h]) else isFalse (by intro hc; cases hc; exact h rfl)
  | Except.ok _, Except.error _ => isFalse (by intro hc; cases hc)
  | Except.error _, Except.ok _ => isFalse (by intro hc; cases hc)

/-- Boolean exact test that `p` starts `l`; used to embed substring search. -/
def isPrefOf : List Char → List Char → Bool
  | [], _ => true
  | _ :: _, [] => false
  | a :: p, b :: l => a = b && isPrefOf p l

/-- ASCII lowercasing of one byte, as Python 2 `str.lower` does per character. -/
def lowerChar (c : Char) : Char :=
  if 'A' ≤ c ∧ c ≤ 'Z' then Char.ofNat (c.toNat + 32) else c

/-- Embeds Python 2 `str.lower` on a byte string. -/
def lowerStr (s : List Char) : List Char := s.map lowerChar

/-- Value of one hexadecimal digit. -/
def hexDigitVal (c : Char) : Option Nat :=
  if '0' ≤ c ∧ c ≤ '9' then some (c.toNat - 48)
  else if 'a' ≤ c ∧ c ≤ 'f' then some (c.toNat - 87)
  else if 'A' ≤ c ∧ c ≤ 'F' then some (c.toNat - 55)
  else none

/-- Characters CPython's C-locale `isspace` accepts: space, tab, newline,
vertical tab, form feed, carriage return. -/
def pySpace (c : Char) : Bool :=
  c = ' ' || c = '\t' || c = '\n' || c = Char.ofNat 11 || c = Char.ofNat 12 || c = '\r'

/-- Embeds Python 2 `int(s, 16)` (`PyInt_FromString` with base 16): optional
surrounding whitespace, an optional single `+`/`-` sign, an optional
`0x`/`0X` prefix, a nonempty run of hex digits, and an optional trailing
`l`/`L`; any other string raises `ValueError` (`none` here).  The result is
a Python int, which can be negative. -/
def hexVal (l : List Char) : Option Int :=
  let l1 := l.dropWhile pySpace
  let sl2 : Int × List Char :=
    match l1 with
    | '+' :: t => (1, t)
    | '-' :: t => (-1, t)
    | _ => (1, l1)
  let l2 := sl2.2
  let l3 :=
    match l2 with
    | '0' :: c :: t => if c = 'x' ∨ c = 'X' then t else l2
    | _ => l2
  let digits := l3.takeWhile (fun c => (hexDigitVal c).isSome)
  let rest := l3.dropWhile (fun c => (hexDigitVal c).isSome)
  let rest2 :=
    match rest with
    | c :: t => if c = 'l' ∨ c = 'L' then t else rest
    | _ => rest
  if digits = [] then none
  else if rest2.dropWhile pySpace ≠ [] then none
  else some (sl2.1 * (digits.foldl (fun a c => a * 16 + (hexDigitVal c).getD 0) 0 : Nat))

/-- Embeds `xrange(a, b)` over Python ints: the list `a, a+1, ..., b-1`
(empty when `b ≤ a`). -/
def xrangeInt (a b : Int) : List Int :=
  (List.range (b - a).toNat).map (fun i : Nat => a + i)

/-- Embeds `line.split(';')`: splits at every semicolon, keeping empty parts. -/
def splitSemi (l : List Char) : List (List Char) :=
  l.foldr
    (fun c acc =>
      if c = ';' then [] :: acc
      else
        match acc with
        | a :: r => (c :: a) :: r
        | [] => [[c]])
    [[]]

/-- The `codepoint` class of the script.  `combining` is stored as the int
`1 if combining else 0`, exactly as `__init__` does; `namesize` is the length
of the name at construction time; `nameoffset` starts out as `None`. -/
structure codepoint where
  uchar : Int
  combining : Nat
  name : List Char
  namesize : Nat
  nameoffset : Option Nat
deriving DecidableEq

/-- Embeds the `codepoint.__init__` constructor. -/
def mkcp (uchar : Int) (name : List Char) (combining : Bool) : codepoint :=
  ⟨uchar, if combining then 1 else 0, name, name.length, none⟩

/-- The mutable module state of the parsing loop: the `charlist` accumulator,
the running `maxnamesize`, and the pending range start `rstart`
(`None` or a codepoint number). -/
structure ExtractState where
  charlist : List codepoint
  maxnamesize : Nat
  rstart : Option Int
deriving DecidableEq

/-- State before the first input line. -/
def initState : ExtractState := ⟨[], 0, none⟩

/-- Python truthiness of the `rstart` variable: `None` and `0` are falsy. -/
def truthy : Option Int → Bool
  | none => false
  | some n => n != 0

/-- Embeds `re.match(r'(?i)<([^,]+), (first|last)>$', name)` on the already
lowercased `name`, returning the label capture group.  The label is everything
before the first comma; the rest must be literally `, first>` or `, last>`. -/
def rangeMatch (name : List Char) : Option (List Char) :=
  match name with
  | '<' :: rest =>
    let label := rest.takeWhile (fun c => c ≠ ',')
    let tl := rest.dropWhile (fun c => c ≠ ',')
    if label ≠ [] ∧ (tl = (", first>").data ∨ tl = (", last>").data) then some label
    else none
  | _ => none

/-- Embeds the `if maxnamesize < charlist[-1].namesize` update that closes
every non-skipped loop iteration; `charlist[-1]` on an empty list is an
`IndexError`. -/
def maxUpd (st : ExtractState) : Except PyErr ExtractState :=
  match st.charlist.getLast? with
  | none => Except.error PyErr.indexErr
  | some c =>
    Except.ok ⟨st.charlist,
      if st.maxnamesize < c.namesize then c.namesize else st.maxnamesize,
      st.rstart⟩

/-- Body of a non-skipped loop iteration: hex-parse the codepoint, lowercase
the name, handle range markers or append a normal record, then update the
running maximum.  `uf`, `nf`, `ff` are the first three semicolon fields. -/
def procBody (st : ExtractState) (uf nf ff : List Char) : Except PyErr ExtractState :=
  match hexVal uf with
  | none => Except.error PyErr.valueErr
  | some uchar =>
    let name := lowerStr nf
    match name with
    | [] => Except.error PyErr.indexErr
    | c0 :: _ =>
      if c0 = '<' then
        if truthy st.rstart then
          match rangeMatch name with
          | none => Except.error PyErr.attrErr
          | some label =>
            let r := st.rstart.getD 0
            maxUpd ⟨st.charlist ++ (xrangeInt r (uchar + 1)).map (fun u => mkcp u label false),
              st.maxnamesize, none⟩
        else
          maxUpd ⟨st.charlist, st.maxnamesize, some uchar⟩
      else
        maxUpd ⟨st.charlist ++ [mkcp uchar name (ff == ('M' :: ['n']))], st.maxnamesize, st.rstart⟩

/-- One iteration of `for line in sys.stdin`, applied to the already split
fields.  Unpacking needs at least three fields; the control-category filter
`flags[0] == 'C' and flags[1] != 'f'` short-circuits like Python. -/
def procLine (st : ExtractState) (fields : List (List Char)) : Except PyErr ExtractState :=
  match fields with
  | uf :: nf :: ff :: _ =>
    match ff with
    | [] => Except.error PyErr.indexErr
    | f0 :: ftl =>
      if f0 = 'C' then
        match ftl with
        | [] => Except.error PyErr.indexErr
        | f1 :: _ => if f1 ≠ 'f' then Except.ok st else procBody st uf nf ff
      else procBody st uf nf ff
  | _ => Except.error PyErr.valueErr

/-- The whole parsing loop over the input lines. -/
def extract (lines : List (List Char)) : Except PyErr ExtractState :=
  lines.foldl (fun a line => a.bind fun st => procLine st (splitSemi line)) (Except.ok initState)

/-- Embeds `nameheap.find(char.name)`: index of the leftmost exact occurrence,
`none` for Python's `-1`. -/
def findSub (hp p : List Char) : Option Nat :=
  if isPrefOf p hp then some 0
  else
    match hp with
    | [] => none
    | _ :: t => (findSub t p).map (fun i => i + 1)

/-- One `for char in charlist` sweep of the heap-building loop at a fixed
`size`: records of another size are skipped; otherwise the name is looked up
in the heap and either the found offset is taken or the name is appended.
`char.name = None` after assignment is modeled by clearing the name to `[]`
(the name is never read again: each record is visited in exactly one sweep). -/
def passOne (size : Nat) : List codepoint → List Char → List codepoint × List Char
  | [], hp => ([], hp)
  | c :: cs, hp =>
    if c.namesize ≠ size then
      let r := passOne size cs hp
      (c :: r.1, r.2)
    else
      match findSub hp c.name with
      | some i =>
        let r := passOne size cs hp
        (⟨c.uchar, c.combining, [], c.namesize, some i⟩ :: r.1, r.2)
      | none =>
        let r := passOne size cs (hp ++ c.name)
        (⟨c.uchar, c.combining, [], c.namesize, some hp.length⟩ :: r.1, r.2)

/-- Embeds `for size in xrange(maxnamesize, 0, -1)`: sweeps at sizes
`m, m-1, ..., 1` (size `0` is never visited). -/
def buildPasses : Nat → List codepoint → List Char → List codepoint × List Char
  | 0, cs, hp => (cs, hp)
  | s + 1, cs, hp =>
    let r := passOne (s + 1) cs hp
    buildPasses s r.1 r.2

/-- The heap-building phase on an extracted state, starting from the empty
heap. -/
def runHeapBuilder (st : ExtractState) : List codepoint × List Char :=
  buildPasses st.maxnamesize st.charlist []

/-- Decimal digits of a number, as Python's `format` prints an int. -/
def natChars (n : Nat) : List Char := (Nat.repr n).data

/-- Decimal digits of a Python int, with a leading minus when negative. -/
def intChars (n : Int) : List Char := (Int.repr n).data

/-- How `format` prints the `nameoffset` field: `None` is printed literally. -/
def offsetChars : Option Nat → List Char
  | none => ("None").data
  | some n => natChars n

/-- Embeds `codepoint.entry()`. -/
def entry (c : codepoint) : List Char :=
  ("\x7b").data ++ offsetChars c.nameoffset ++ [','] ++ natChars c.namesize ++ [',']
    ++ intChars c.uchar ++ [','] ++ natChars c.combining ++ ("\x7d").data

/-- Embeds `for i in xrange(0, len(nameheap), 76)`: the heap is written in
76-character chunks, each closed by a backslash and newline. -/
def heapLines (hp : List Char) : List Char :=
  if h : hp = [] then []
  else hp.take 76 ++ ("\\\n").data ++ heapLines (hp.drop 76)
termination_by hp.length
decreasing_by
  simp only [List.length_drop]
  exact Nat.sub_lt (List.length_pos.mpr h) (by decide)

/-- The text written to standard output: header, one `entry` plus `,\n` per
record, the array-size line, and the wrapped heap literal. -/
def emit (cs : List codepoint) (hp : List Char) : List Char :=
  ("/* This file is generated by mkcharlist.py. Do not edit directly. */\n").data
    ++ ("#include \"data.h\"\n").data
    ++ ("charinfo const charlist[] = \x7b\n").data
    ++ (cs.map (fun c => entry c ++ (",\n").data)).flatten
    ++ ("\x7d;\nint const charlistsize = sizeof charlist / sizeof *charlist;\nchar const *charnamebuffer = \"\\\n").data
    ++ heapLines hp
    ++ ("\";\n").data

/-- The whole pipeline, from input lines to the generated C text. -/
def pipeline (lines : List (List Char)) : Except PyErr (List Char) :=
  (extract lines).map fun st =>
    let r := runHeapBuilder st
    emit r.1 r.2

/-! Basic properties of the substring search. -/

lemma isPrefOf_iff (p l : List Char) : isPrefOf p l = true ↔ p <+: l := by
  induction p generalizing l with
  | nil => simp [isPrefOf]
  | cons a p ih =>
    cases l with
    | nil => simp [isPrefOf]
    | cons b l =>
      rw [isPrefOf, Bool.and_eq_true, decide_eq_true_eq, List.cons_prefix_cons, ih]

lemma findSub_eq_some (hp p : List Char) (i : Nat) :
    findSub hp p = some i →
    p <+: hp.drop i ∧ i ≤ hp.length ∧ ∀ j, j < i → ¬ p <+: hp.drop j := by
  induction hp generalizing i with
  | nil =>
    intro h
    rw [findSub] at h
    split at h
    next hpre =>
      injection h with h0
      subst h0
      exact ⟨(isPrefOf_iff _ _).mp hpre, by simp, by omega⟩
    next => cases h
  | cons a t ih =>
    intro h
    rw [findSub] at h
    split at h
    next hpre =>
      injection h with h0
      subst h0
      exact ⟨(isPrefOf_iff _ _).mp hpre, by simp, by omega⟩
    next hnpre =>
      cases hf : findSub t p with
      | none => rw [hf] at h; cases h
      | some j =>
        rw [hf] at h
        simp only [Option.map_some'] at h
        injection h with h0
        subst h0
        obtain ⟨h1, h2, h3⟩ := ih j hf
        refine ⟨by simpa using h1, by simpa using Nat.succ_le_succ h2, ?_⟩
        intro k hk
        cases k with
        | zero =>
          intro hcon
          exact hnpre ((isPrefOf_iff _ _).mpr (by simpa using hcon))
        | succ k2 =>
          intro hcon
          exact h3 k2 (by omega) (by simpa using hcon)

lemma findSub_eq_none (hp p : List Char) :
    findSub hp p = none → ∀ j, ¬ p <+: hp.drop j := by
  induction hp with
  | nil =>
    intro h j hc
    rw [findSub] at h
    split at h
    next => cases h
    next hnpre =>
      exact hnpre ((isPrefOf_iff _ _).mpr (by simpa using hc))
  | cons a t ih =>
    intro h j hc
    rw [findSub] at h
    split at h
    next => cases h
    next hnpre =>
      cases hf : findSub t p with
      | some j2 => rw [hf] at h; cases h
      | none =>
        cases j with
        | zero => exact hnpre ((isPrefOf_iff _ _).mpr (by simpa using hc))
        | succ j2 => exact ih hf j2 (by simpa using hc)

lemma findSub_le_of_occ (hp p : List Char) (j : Nat) (h : p <+: hp.drop j) :
    ∃ i, findSub hp p = some i ∧ i ≤ j := by
  cases hf : findSub hp p with
  | none => exact absurd h (findSub_eq_none hp p hf j)
  | some i =>
    obtain ⟨_, _, h3⟩ := findSub_eq_some hp p i hf
    refine ⟨i, rfl, ?_⟩
    by_contra hlt
    exact h3 j (by omega) h

lemma occ_append (hp t p : List Char) (i : Nat) (h : p <+: hp.drop i) :
    p <+: (hp ++ t).drop i := by
  have hsub : hp.drop i <+: (hp ++ t).drop i := by
    rw [List.drop_append_eq_append_drop]
    exact List.prefix_append _ _
  exact h.trans hsub

lemma occ_length_le (hp p : List Char) (i : Nat) (hi : i ≤ hp.length)
    (h : p <+: hp.drop i) : i + p.length ≤ hp.length := by
  have := h.length_le
  rw [List.length_drop] at this
  omega

lemma occ_take (hp p : List Char) (i : Nat) (h : p <+: hp.drop i) :
    (hp.drop i).take p.length = p :=
  (List.prefix_iff_eq_take.mp h).symm

/-! Behavior of one heap-building sweep and of the whole size loop. -/

lemma passOne_cons_skip (s : Nat) (c : codepoint) (cs : List codepoint) (hp : List Char)
    (h : c.namesize ≠ s) :
    passOne s (c :: cs) hp = (c :: (passOne s cs hp).1, (passOne s cs hp).2) := by
  simp [passOne, h]

lemma passOne_cons_found (s : Nat) (c : codepoint) (cs : List codepoint) (hp : List Char)
    (i : Nat) (h : c.namesize = s) (hf : findSub hp c.name = some i) :
    passOne s (c :: cs) hp =
      (⟨c.uchar, c.combining, [], c.namesize, some i⟩ :: (passOne s cs hp).1,
        (passOne s cs hp).2) := by
  simp [passOne, h, hf]

lemma passOne_cons_miss (s : Nat) (c : codepoint) (cs : List codepoint) (hp : List Char)
    (h : c.namesize = s) (hf : findSub hp c.name = none) :
    passOne s (c :: cs) hp =
      (⟨c.uchar, c.combining, [], c.namesize, some hp.length⟩
          :: (passOne s cs (hp ++ c.name)).1,
        (passOne s cs (hp ++ c.name)).2) := by
  simp [passOne, h, hf]

/-- Relation between a record before and after the sweep at size `s`, with
respect to the heap `H` the sweep produced. -/
def StepRel (s : Nat) (H : List Char) (c c2 : codepoint) : Prop :=
  c2.namesize = c.namesize ∧ c2.uchar = c.uchar ∧ c2.combining = c.combining ∧
  (c.namesize ≠ s → c2 = c) ∧
  (c.namesize = s →
    ∃ o, c2.nameoffset = some o ∧ o + c.name.length ≤ H.length ∧ c.name <+: H.drop o)

/-- Relation between a record before and after all sweeps at sizes `m .. 1`,
with respect to the final heap `H`. -/
def BuildRel (m : Nat) (H : List Char) (c c2 : codepoint) : Prop :=
  c2.namesize = c.namesize ∧ c2.uchar = c.uchar ∧ c2.combining = c.combining ∧
  ((c.namesize = 0 ∨ m < c.namesize) → c2 = c) ∧
  (1 ≤ c.namesize → c.namesize ≤ m →
    ∃ o, c2.nameoffset = some o ∧ o + c.name.length ≤ H.length ∧ c.name <+: H.drop o)

lemma forall₂_comp {α β γ : Type} {R : α → β → Prop} {S : β → γ → Prop} {T : α → γ → Prop}
    (hRS : ∀ a b c, R a b → S b c → T a c) :
    ∀ {l1 : List α} {l2 : List β} {l3 : List γ},
      List.Forall₂ R l1 l2 → List.Forall₂ S l2 l3 → List.Forall₂ T l1 l3
  | _, _, _, List.Forall₂.nil, List.Forall₂.nil => List.Forall₂.nil
  | _, _, _, List.Forall₂.cons h1 t1, List.Forall₂.cons h2 t2 =>
    List.Forall₂.cons (hRS _ _ _ h1 h2) (forall₂_comp hRS t1 t2)

lemma passOne_main (s : Nat) (cs : List codepoint) (hp : List Char) :
    (∃ t, (passOne s cs hp).2 = hp ++ t) ∧
    List.Forall₂ (StepRel s (passOne s cs hp).2) cs (passOne s cs hp).1 := by
  induction cs generalizing hp with
  | nil => exact ⟨⟨[], by simp [passOne]⟩, by simp [passOne]⟩
  | cons c cs ih =>
    by_cases hns : c.namesize = s
    · cases hf : findSub hp c.name with
      | some i =>
        obtain ⟨⟨t, ht⟩, hall⟩ := ih hp
        rw [passOne_cons_found s c cs hp i hns hf]
        obtain ⟨h1, h2, _⟩ := findSub_eq_some hp c.name i hf
        refine ⟨⟨t, ht⟩, List.Forall₂.cons ⟨rfl, rfl, rfl, fun hn => absurd hns hn, fun _ => ?_⟩ hall⟩
        refine ⟨i, rfl, ?_, ?_⟩
        · calc i + c.name.length ≤ hp.length := occ_length_le hp c.name i h2 h1
            _ ≤ (passOne s cs hp).2.length := by rw [ht]; simp
        · rw [ht]; exact occ_append hp t c.name i h1
      | none =>
        obtain ⟨⟨t, ht⟩, hall⟩ := ih (hp ++ c.name)
        rw [passOne_cons_miss s c cs hp hns hf]
        refine ⟨⟨c.name ++ t, by rw [ht, List.append_assoc]⟩,
          List.Forall₂.cons ⟨rfl, rfl, rfl, fun hn => absurd hns hn, fun _ => ?_⟩ hall⟩
        refine ⟨hp.length, rfl, ?_, ?_⟩
        · rw [ht]; simp only [List.length_append]; omega
        · rw [ht, List.append_assoc, List.drop_left]
          exact List.prefix_append _ _
    · obtain ⟨⟨t, ht⟩, hall⟩ := ih hp
      rw [passOne_cons_skip s c cs hp hns]
      exact ⟨⟨t, ht⟩,
        List.Forall₂.cons ⟨rfl, rfl, rfl, fun _ => rfl, fun he => absurd he hns⟩ hall⟩

lemma buildPasses_succ (m : Nat) (cs : List codepoint) (hp : List Char) :
    buildPasses (m + 1) cs hp =
      buildPasses m (passOne (m + 1) cs hp).1 (passOne (m + 1) cs hp).2 := by
  rw [buildPasses]

lemma buildPasses_main (m : Nat) : ∀ (cs : List codepoint) (hp : List Char),
    (∃ t, (buildPasses m cs hp).2 = hp ++ t) ∧
    List.Forall₂ (BuildRel m (buildPasses m cs hp).2) cs (buildPasses m cs hp).1 := by
  induction m with
  | zero =>
    intro cs hp
    refine ⟨⟨[], by simp [buildPasses]⟩, ?_⟩
    rw [buildPasses]
    exact List.forall₂_same.mpr fun c _ =>
      ⟨rfl, rfl, rfl, fun _ => rfl, fun h1 h0 => by omega⟩
  | succ m ih =>
    intro cs hp
    obtain ⟨⟨t1, ht1⟩, hall1⟩ := passOne_main (m + 1) cs hp
    obtain ⟨⟨t2, ht2⟩, hall2⟩ := ih (passOne (m + 1) cs hp).1 (passOne (m + 1) cs hp).2
    rw [buildPasses_succ]
    refine ⟨⟨t1 ++ t2, by rw [ht2, ht1, List.append_assoc]⟩, ?_⟩
    refine forall₂_comp ?_ hall1 hall2
    rintro c cmid cfin ⟨hns, hu, hc, hskip, hproc⟩ ⟨hns2, hu2, hc2, hskip2, hproc2⟩
    refine ⟨hns2.trans hns, hu2.trans hu, hc2.trans hc, ?_, ?_⟩
    · rintro (h0 | hgt)
      · have hmid : cmid = c := hskip (by omega)
        have : cfin = cmid := hskip2 (by rw [hns]; omega)
        rw [this, hmid]
      · have hmid : cmid = c := hskip (by omega)
        have : cfin = cmid := hskip2 (by rw [hns]; omega)
        rw [this, hmid]
    · intro hge1 hlem
      by_cases heq : c.namesize = m + 1
      · obtain ⟨o, ho, hlen, hocc⟩ := hproc heq
        have hfin : cfin = cmid := hskip2 (by rw [hns]; omega)
        refine ⟨o, by rw [hfin]; exact ho, ?_, ?_⟩
        · calc o + c.name.length ≤ (passOne (m + 1) cs hp).2.length := hlen
            _ ≤ (buildPasses m (passOne (m + 1) cs hp).1 (passOne (m + 1) cs hp).2).2.length := by
              rw [ht2]; simp
        · rw [ht2]; exact occ_append _ t2 c.name o hocc
      · have hmid : cmid = c := hskip heq
        obtain ⟨o, ho, hlen, hocc⟩ := hproc2 (by omega) (by omega)
        rw [hmid] at hlen hocc
        exact ⟨o, ho, hlen, hocc⟩

/-! Well-formedness of extracted states. -/

/-- Invariant of the parsing loop: every record's stored `namesize` is the
length of its nonempty name and is bounded by the running `maxnamesize`. -/
def WFstate (st : ExtractState) : Prop :=
  ∀ c ∈ st.charlist, 1 ≤ c.namesize ∧ c.namesize ≤ st.maxnamesize ∧ c.name.length = c.namesize

lemma rangeMatch_ne_nil (n lab : List Char) (h : rangeMatch n = some lab) : lab ≠ [] := by
  unfold rangeMatch at h
  split at h
  · dsimp only at h
    split at h
    next hc =>
      injection h with h0
      subst h0
      exact hc.1
    next => cases h
  · cases h

lemma maxUpd_ok (st st2 : ExtractState) (h : maxUpd st = Except.ok st2) :
    st2.charlist = st.charlist ∧ st2.rstart = st.rstart ∧
    st.maxnamesize ≤ st2.maxnamesize ∧
    ∀ c, st.charlist.getLast? = some c → c.namesize ≤ st2.maxnamesize := by
  unfold maxUpd at h
  split at h
  next => cases h
  next c hg =>
    injection h with h0
    subst h0
    refine ⟨rfl, rfl, ?_, ?_⟩
    · dsimp only
      split <;> omega
    · intro d hd
      rw [hg] at hd
      injection hd with hd0
      subst hd0
      dsimp only
      split <;> omega

lemma maxUpd_err (st : ExtractState) (h : st.charlist = []) :
    maxUpd st = Except.error PyErr.indexErr := by
  unfold maxUpd
  rw [h]
  rfl

lemma maxUpd_ne_nil (st : ExtractState) (h : st.charlist ≠ []) :
    ∃ m2, maxUpd st = Except.ok ⟨st.charlist, m2, st.rstart⟩ := by
  unfold maxUpd
  cases hg : st.charlist.getLast? with
  | none => exact absurd (List.getLast?_eq_none_iff.mp hg) h
  | some c => exact ⟨_, rfl⟩

lemma maxUpd_append_WF (chl : List codepoint) (mx : Nat) (new : List codepoint)
    (rst : Option Int) (k : Nat) (st2 : ExtractState)
    (hwf : ∀ c ∈ chl, 1 ≤ c.namesize ∧ c.namesize ≤ mx ∧ c.name.length = c.namesize)
    (hk : ∀ c ∈ new, c.namesize = k ∧ 1 ≤ c.namesize ∧ c.name.length = c.namesize)
    (h : maxUpd ⟨chl ++ new, mx, rst⟩ = Except.ok st2) : WFstate st2 := by
  obtain ⟨hch, _, hmx, hlast⟩ := maxUpd_ok _ _ h
  intro c hc
  rw [hch] at hc
  rcases List.mem_append.mp hc with hold | hnew
  · obtain ⟨h1, h2, h3⟩ := hwf c hold
    exact ⟨h1, le_trans h2 hmx, h3⟩
  · obtain ⟨hck, h1, h3⟩ := hk c hnew
    have hne : new ≠ [] := by
      intro hnil
      rw [hnil] at hnew
      cases hnew
    obtain ⟨lastc, hlc⟩ : ∃ d, new.getLast? = some d := by
      cases hgl : new.getLast? with
      | none => exact absurd (List.getLast?_eq_none_iff.mp hgl) hne
      | some d => exact ⟨d, rfl⟩
    have hlmem : lastc ∈ new := by
      obtain ⟨hx, hy⟩ := List.mem_getLast?_eq_getLast (show lastc ∈ new.getLast? from hlc)
      rw [hy]
      exact List.getLast_mem hx
    have hlk : lastc.namesize = k := (hk lastc hlmem).1
    have : lastc.namesize ≤ st2.maxnamesize := by
      apply hlast
      dsimp only at *
      rw [List.getLast?_append_of_ne_nil _ hne]
      exact hlc
    refine ⟨h1, ?_, h3⟩
    omega

lemma maxUpd_keep_WF (chl : List codepoint) (mx : Nat) (rst : Option Int) (st2 : ExtractState)
    (hwf : ∀ c ∈ chl, 1 ≤ c.namesize ∧ c.namesize ≤ mx ∧ c.name.length = c.namesize)
    (h : maxUpd ⟨chl, mx, rst⟩ = Except.ok st2) : WFstate st2 := by
  obtain ⟨hch, _, hmx, _⟩ := maxUpd_ok _ _ h
  intro c hc
  rw [hch] at hc
  obtain ⟨h1, h2, h3⟩ := hwf c hc
  exact ⟨h1, le_trans h2 hmx, h3⟩

lemma procBody_WF (st : ExtractState) (uf nf ff : List Char) (st2 : ExtractState)
    (hwf : WFstate st) (h : procBody st uf nf ff = Except.ok st2) : WFstate st2 := by
  unfold procBody at h
  cases hhex : hexVal uf with
  | none => rw [hhex] at h; cases h
  | some uchar =>
    rw [hhex] at h
    dsimp only at h
    cases hn : lowerStr nf with
    | nil => rw [hn] at h; cases h
    | cons c0 nt =>
      rw [hn] at h
      dsimp only at h
      by_cases hlt : c0 = '<'
      · rw [if_pos hlt] at h
        by_cases htr : truthy st.rstart = true
        · rw [if_pos htr] at h
          cases hrm : rangeMatch (c0 :: nt) with
          | none => rw [hrm] at h; cases h
          | some lab =>
            rw [hrm] at h
            have hlab : lab ≠ [] := rangeMatch_ne_nil _ _ hrm
            refine maxUpd_append_WF st.charlist st.maxnamesize _ none lab.length st2 hwf ?_ h
            intro c hc
            obtain ⟨u, _, hcu⟩ := List.mem_map.mp hc
            rw [← hcu]
            refine ⟨rfl, ?_, rfl⟩
            have : 0 < lab.length := List.length_pos.mpr hlab
            simpa [mkcp] using this
        · rw [if_neg htr] at h
          exact maxUpd_keep_WF st.charlist st.maxnamesize (some uchar) st2 hwf h
      · rw [if_neg hlt] at h
        refine maxUpd_append_WF st.charlist st.maxnamesize _ st.rstart (c0 :: nt).length st2 hwf ?_ h
        intro c hc
        rcases List.mem_singleton.mp hc with rfl
        exact ⟨rfl, by simp [mkcp], rfl⟩

lemma procLine_WF (st : ExtractState) (fs : List (List Char)) (st2 : ExtractState)
    (hwf : WFstate st) (h : procLine st fs = Except.ok st2) : WFstate st2 := by
  cases fs with
  | nil => simp only [procLine] at h; cases h
  | cons uf fs1 =>
    cases fs1 with
    | nil => simp only [procLine] at h; cases h
    | cons nf fs2 =>
      cases fs2 with
      | nil => simp only [procLine] at h; cases h
      | cons ff rest =>
        simp only [procLine] at h
        cases ff with
        | nil => cases h
        | cons f0 ftl =>
          dsimp only at h
          by_cases hC : f0 = 'C'
          · rw [if_pos hC] at h
            cases ftl with
            | nil => cases h
            | cons f1 ftl2 =>
              dsimp only at h
              by_cases hf : f1 ≠ 'f'
              · rw [if_pos hf] at h
                injection h with h0
                subst h0
                exact hwf
              · rw [if_neg hf] at h
                exact procBody_WF st uf nf _ st2 hwf h
          · rw [if_neg hC] at h
            exact procBody_WF st uf nf _ st2 hwf h

lemma extract_WF (lines : List (List Char)) (st : ExtractState)
    (h : extract lines = Except.ok st) : WFstate st := by
  suffices H : ∀ (ls : List (List Char)) (a : Except PyErr ExtractState),
      (∀ st0, a = Except.ok st0 → WFstate st0) →
      ∀ st2, ls.foldl (fun a line => a.bind fun s => procLine s (splitSemi line)) a
          = Except.ok st2 →
      WFstate st2 by
    refine H lines (Except.ok initState) ?_ st h
    intro st0 h0
    injection h0 with h1
    subst h1
    intro c hc
    cases hc
  intro ls
  induction ls with
  | nil =>
    intro a ha st2 h2
    exact ha st2 h2
  | cons l ls ih =>
    intro a ha st2 h2
    rw [List.foldl_cons] at h2
    refine ih _ ?_ st2 h2
    intro st0 h0
    cases a with
    | error e => cases h0
    | ok stp => exact procLine_WF stp _ st0 (ha stp rfl) h0

/-! Specification-side description of the heap builder (for the refinement
claim): the length loop, the per-length filtering, and the first-matching-
position search are written following the spec text, then proved equal to the
embedded code. -/

/-- Modelled from the spec (§4.2): the first, i.e. leftmost, matching position
of `p` in `hp`, searching candidate offsets from the left. -/
def firstMatchPos (hp p : List Char) : Option Nat :=
  (List.range (hp.length + 1)).find? (fun i => decide (p <+: hp.drop i))

lemma findSub_eq_firstMatchPos (hp p : List Char) : findSub hp p = firstMatchPos hp p := by
  induction hp with
  | nil =>
    rw [findSub, firstMatchPos]
    have hr : List.range (([] : List Char).length + 1) = [0] := by decide
    rw [hr]
    by_cases hb : isPrefOf p []
    · rw [if_pos hb, List.find?_cons_of_pos _ (by simpa using (isPrefOf_iff _ _).mp hb)]
    · rw [if_neg hb,
        List.find?_cons_of_neg _ (by simpa using fun hc => hb ((isPrefOf_iff _ _).mpr hc))]
      rfl
  | cons a t ih =>
    rw [findSub, firstMatchPos]
    have hr : List.range ((a :: t).length + 1)
        = 0 :: (List.range (t.length + 1)).map Nat.succ := by
      rw [List.length_cons, List.range_succ_eq_map]
    rw [hr]
    by_cases hb : isPrefOf p (a :: t)
    · rw [if_pos hb, List.find?_cons_of_pos _ (by simpa using (isPrefOf_iff _ _).mp hb)]
    · rw [if_neg hb,
        List.find?_cons_of_neg _ (by simpa using fun hc => hb ((isPrefOf_iff _ _).mpr hc))]
      rw [List.find?_map, ih]
      rfl

/-- Modelled from the spec (§4.2 steps b and c): assign one record against the
heap: if the name occurs, take the first matching position and leave the heap
alone; otherwise record the current heap length and append the name. -/
def specAssign (c : codepoint) (hp : List Char) : codepoint × List Char :=
  match firstMatchPos hp c.name with
  | some i => (⟨c.uchar, c.combining, [], c.namesize, some i⟩, hp)
  | none => (⟨c.uchar, c.combining, [], c.namesize, some hp.length⟩, hp ++ c.name)

/-- Modelled from the spec: process a group of records (those of one length,
in their existing relative order) left to right against the evolving heap. -/
def specGroup : List codepoint → List Char → List codepoint × List Char
  | [], hp => ([], hp)
  | c :: cs, hp =>
    let a := specAssign c hp
    let r := specGroup cs a.2
    (a.1 :: r.1, r.2)

/-- Reinsert the processed group into the full record list, replacing the
records of the processed length in order and leaving the others untouched. -/
def specMerge (size : Nat) : List codepoint → List codepoint → List codepoint
  | [], _ => []
  | c :: cs, g =>
    if c.namesize = size then
      match g with
      | p :: g2 => p :: specMerge size cs g2
      | [] => c :: specMerge size cs []
    else c :: specMerge size cs g

/-- Modelled from the spec (§4.2 step 2a-2c): one iteration of the length
loop processes exactly the records whose `nameLength` equals `size`, in their
existing relative order. -/
def specLengthPass (size : Nat) (cs : List codepoint) (hp : List Char) :
    List codepoint × List Char :=
  let g := specGroup (cs.filter (fun c => c.namesize == size)) hp
  (specMerge size cs g.1, g.2)

/-- Modelled from the spec (§4.2 step 2): the length loop from `m` down to 1. -/
def specBuild : Nat → List codepoint → List Char → List codepoint × List Char
  | 0, cs, hp => (cs, hp)
  | s + 1, cs, hp =>
    let r := specLengthPass (s + 1) cs hp
    specBuild s r.1 r.2

lemma passOne_eq_specLengthPass (s : Nat) (cs : List codepoint) (hp : List Char) :
    passOne s cs hp = specLengthPass s cs hp := by
  induction cs generalizing hp with
  | nil => simp [passOne, specLengthPass, specGroup, specMerge]
  | cons c cs ih =>
    by_cases hns : c.namesize = s
    · have hfil : (c :: cs).filter (fun d => d.namesize == s)
          = c :: cs.filter (fun d => d.namesize == s) := by
        simp [List.filter_cons, hns]
      cases hf : findSub hp c.name with
      | some i =>
        have ha : firstMatchPos hp c.name = some i := by
          rw [← findSub_eq_firstMatchPos]; exact hf
        rw [passOne_cons_found s c cs hp i hns hf, ih hp]
        simp [specLengthPass, hfil, specGroup, specAssign, ha, specMerge, hns]
      | none =>
        have ha : firstMatchPos hp c.name = none := by
          rw [← findSub_eq_firstMatchPos]; exact hf
        rw [passOne_cons_miss s c cs hp hns hf, ih (hp ++ c.name)]
        simp [specLengthPass, hfil, specGroup, specAssign, ha, specMerge, hns]
    · have hfil : (c :: cs).filter (fun d => d.namesize == s)
          = cs.filter (fun d => d.namesize == s) := by
        simp [List.filter_cons, hns]
      rw [passOne_cons_skip s c cs hp hns, ih hp]
      simp [specLengthPass, hfil, specMerge, hns]

lemma buildPasses_eq_specBuild (m : Nat) : ∀ (cs : List codepoint) (hp : List Char),
    buildPasses m cs hp = specBuild m cs hp := by
  induction m with
  | zero => intro cs hp; rw [buildPasses, specBuild]
  | succ m ih =>
    intro cs hp
    rw [buildPasses_succ, passOne_eq_specLengthPass, specBuild, ih]

/-- The sweeps at sizes `m, m-1, ..., s+1` only; `buildPasses` factors through
this prefix of the loop (see `passesDownTo_split`). -/
def passesDownTo : Nat → Nat → List codepoint → List Char → List codepoint × List Char
  | 0, _, cs, hp => (cs, hp)
  | m + 1, s, cs, hp =>
    if m + 1 ≤ s then (cs, hp)
    else
      let r := passOne (m + 1) cs hp
      passesDownTo m s r.1 r.2

lemma passesDownTo_split (m s : Nat) (hs : s ≤ m) : ∀ (cs : List codepoint) (hp : List Char),
    buildPasses m cs hp
      = buildPasses s (passesDownTo m s cs hp).1 (passesDownTo m s cs hp).2 := by
  induction m with
  | zero =>
    intro cs hp
    have h0 : s = 0 := by omega
    subst h0
    rw [passesDownTo]
  | succ m ih =>
    intro cs hp
    by_cases hse : m + 1 ≤ s
    · have h1 : s = m + 1 := by omega
      subst h1
      rw [passesDownTo, if_pos hse]
    · rw [passesDownTo, if_neg hse]
      dsimp only
      rw [buildPasses_succ]
      exact ih (by omega) (passOne (m + 1) cs hp).1 (passOne (m + 1) cs hp).2

lemma passesDownTo_main (m s : Nat) : ∀ (cs : List codepoint) (hp : List Char),
    (∃ t, (passesDownTo m s cs hp).2 = hp ++ t) ∧
    List.Forall₂ (fun c c2 =>
      c2.namesize = c.namesize ∧
      (¬ (s < c.namesize ∧ c.namesize ≤ m) → c2 = c) ∧
      (s < c.namesize → c.namesize ≤ m →
        ∃ o, c2.nameoffset = some o
          ∧ o + c.name.length ≤ (passesDownTo m s cs hp).2.length
          ∧ c.name <+: (passesDownTo m s cs hp).2.drop o))
      cs (passesDownTo m s cs hp).1 := by
  induction m with
  | zero =>
    intro cs hp
    rw [passesDownTo]
    exact ⟨⟨[], by simp⟩,
      List.forall₂_same.mpr fun c _ => ⟨rfl, fun _ => rfl, fun h1 h2 => by omega⟩⟩
  | succ m ih =>
    intro cs hp
    by_cases hse : m + 1 ≤ s
    · rw [passesDownTo, if_pos hse]
      exact ⟨⟨[], by simp⟩,
        List.forall₂_same.mpr fun c _ => ⟨rfl, fun _ => rfl, fun h1 h2 => by omega⟩⟩
    · rw [passesDownTo, if_neg hse]
      dsimp only
      obtain ⟨⟨t1, ht1⟩, hall1⟩ := passOne_main (m + 1) cs hp
      obtain ⟨⟨t2, ht2⟩, hall2⟩ := ih (passOne (m + 1) cs hp).1 (passOne (m + 1) cs hp).2
      refine ⟨⟨t1 ++ t2, by rw [ht2, ht1, List.append_assoc]⟩, ?_⟩
      refine forall₂_comp ?_ hall1 hall2
      rintro c cmid cfin ⟨hns, hu, hc, hskip, hproc⟩ ⟨hns2, hskip2, hproc2⟩
      refine ⟨hns2.trans hns, ?_, ?_⟩
      · intro hnot
        have hne : c.namesize ≠ m + 1 := fun he => hnot ⟨by omega, by omega⟩
        have hmid : cmid = c := hskip hne
        have hfin : cfin = cmid := hskip2 (by
          rintro ⟨hc1, hc2⟩
          exact hnot ⟨by omega, by omega⟩)
        rw [hfin, hmid]
      · intro hlt hle
        by_cases heq : c.namesize = m + 1
        · obtain ⟨o, ho, hlen, hocc⟩ := hproc heq
          have hfin : cfin = cmid := hskip2 (by rintro ⟨hc1, hc2⟩; omega)
          refine ⟨o, by rw [hfin]; exact ho, ?_, ?_⟩
          · rw [ht2]; simp only [List.length_append]; omega
          · rw [ht2]; exact occ_append _ t2 c.name o hocc
        · have hmid : cmid = c := hskip heq
          obtain ⟨o, ho, hlen, hocc⟩ := hproc2 (by omega) (by omega)
          rw [hmid] at hlen hocc
          exact ⟨o, ho, hlen, hocc⟩

lemma passOne_append (s : Nat) (xs ys : List codepoint) : ∀ (hp : List Char),
    passOne s (xs ++ ys) hp
      = ((passOne s xs hp).1 ++ (passOne s ys (passOne s xs hp).2).1,
         (passOne s ys (passOne s xs hp).2).2) := by
  induction xs with
  | nil => intro hp; simp [passOne]
  | cons c xs ih =>
    intro hp
    by_cases hns : c.namesize = s
    · cases hf : findSub hp c.name with
      | some i =>
        rw [List.cons_append, passOne_cons_found s c (xs ++ ys) hp i hns hf,
          passOne_cons_found s c xs hp i hns hf, ih hp]
        simp
      | none =>
        rw [List.cons_append, passOne_cons_miss s c (xs ++ ys) hp hns hf,
          passOne_cons_miss s c xs hp hns hf, ih (hp ++ c.name)]
        simp
    · rw [List.cons_append, passOne_cons_skip s c (xs ++ ys) hp hns,
        passOne_cons_skip s c xs hp hns, ih hp]
      simp

lemma passOne_length (s : Nat) (cs : List codepoint) (hp : List Char) :
    (passOne s cs hp).1.length = cs.length :=
  ((passOne_main s cs hp).2.length_eq).symm

lemma buildPasses_length (m : Nat) (cs : List codepoint) (hp : List Char) :
    (buildPasses m cs hp).1.length = cs.length :=
  (((buildPasses_main m) cs hp).2.length_eq).symm

lemma passesDownTo_length (m s : Nat) (cs : List codepoint) (hp : List Char) :
    (passesDownTo m s cs hp).1.length = cs.length :=
  (((passesDownTo_main m s) cs hp).2.length_eq).symm

lemma passOne_filter_non0 (s : Nat) (hs : s ≠ 0) :
    ∀ (cs : List codepoint) (hp : List Char),
    passOne s (cs.filter (fun c => c.namesize != 0)) hp
      = ((passOne s cs hp).1.filter (fun c => c.namesize != 0), (passOne s cs hp).2) := by
  intro cs
  induction cs with
  | nil => intro hp; simp [passOne]
  | cons c cs ih =>
    intro hp
    by_cases h0 : c.namesize = 0
    · have hns : c.namesize ≠ s := by omega
      have hfil : (c :: cs).filter (fun d => d.namesize != 0)
          = cs.filter (fun d => d.namesize != 0) := by
        simp [List.filter_cons, h0]
      rw [hfil, ih hp, passOne_cons_skip s c cs hp hns]
      simp [List.filter_cons, h0]
    · have hfil : (c :: cs).filter (fun d => d.namesize != 0)
          = c :: cs.filter (fun d => d.namesize != 0) := by
        simp [List.filter_cons, h0]
      by_cases hns : c.namesize = s
      · cases hf : findSub hp c.name with
        | some i =>
          rw [hfil, passOne_cons_found s c _ hp i hns hf,
            passOne_cons_found s c cs hp i hns hf, ih hp]
          simp [List.filter_cons, h0]
        | none =>
          rw [hfil, passOne_cons_miss s c _ hp hns hf,
            passOne_cons_miss s c cs hp hns hf, ih (hp ++ c.name)]
          simp [List.filter_cons, h0]
      · rw [hfil, passOne_cons_skip s c _ hp hns,
          passOne_cons_skip s c cs hp hns, ih hp]
        simp [List.filter_cons, h0]

lemma buildPasses_filter_non0 (m : Nat) : ∀ (cs : List codepoint) (hp : List Char),
    buildPasses m (cs.filter (fun c => c.namesize != 0)) hp
      = ((buildPasses m cs hp).1.filter (fun c => c.namesize != 0),
         (buildPasses m cs hp).2) := by
  induction m with
  | zero => intro cs hp; rw [buildPasses, buildPasses]
  | succ m ih =>
    intro cs hp
    rw [buildPasses_succ, buildPasses_succ, passOne_filter_non0 (m + 1) (by omega) cs hp]
    exact ih (passOne (m + 1) cs hp).1 (passOne (m + 1) cs hp).2

/-! Reduction lemmas for single input lines. -/

/-- The flag field reaches the loop body when its first character is not the
control marker, or when it is immediately followed by the format marker. -/
def proceedFlags : List Char → Bool
  | [] => false
  | c :: t =>
    if c = 'C' then
      match t with
      | c2 :: _ => c2 = 'f'
      | [] => false
    else true

lemma procLine_skip (st : ExtractState) (uf nf : List Char) (f1 : Char) (ftl : List Char)
    (rest : List (List Char)) (h : f1 ≠ 'f') :
    procLine st (uf :: nf :: ('C' :: f1 :: ftl) :: rest) = Except.ok st := by
  simp [procLine, h]

lemma procLine_proceed (st : ExtractState) (uf nf ff : List Char) (rest : List (List Char))
    (h : proceedFlags ff = true) :
    procLine st (uf :: nf :: ff :: rest) = procBody st uf nf ff := by
  cases ff with
  | nil => cases h
  | cons f0 ftl =>
    by_cases hC : f0 = 'C'
    · cases ftl with
      | nil =>
        rw [proceedFlags, if_pos hC] at h
        cases h
      | cons f1 ftl2 =>
        rw [proceedFlags, if_pos hC] at h
        have hf1 : f1 = 'f' := by simpa using h
        simp [procLine, hC, hf1]
    · simp [procLine, hC]

lemma takeWhile_append_of_all {p : Char → Bool} :
    ∀ (l r : List Char), (∀ x ∈ l, p x = true) →
      (l ++ r).takeWhile p = l ++ r.takeWhile p
  | [], _, _ => rfl
  | a :: l, r, h => by
    have ha : p a = true := h a (by simp)
    simp only [List.cons_append, List.takeWhile_cons, ha, if_true]
    rw [takeWhile_append_of_all l r (fun x hx => h x (by simp [hx]))]

lemma dropWhile_append_of_all {p : Char → Bool} :
    ∀ (l r : List Char), (∀ x ∈ l, p x = true) →
      (l ++ r).dropWhile p = r.dropWhile p
  | [], _, _ => rfl
  | a :: l, r, h => by
    have ha : p a = true := h a (by simp)
    simp only [List.cons_append, List.dropWhile_cons, ha, if_true]
    exact dropWhile_append_of_all l r (fun x hx => h x (by simp [hx]))

lemma rangeMatch_build (lab : List Char) (hne : lab ≠ []) (hnc : ',' ∉ lab)
    (tl : List Char) (htl : tl = (", first>").data ∨ tl = (", last>").data) :
    rangeMatch ('<' :: (lab ++ tl)) = some lab := by
  have hall : ∀ x ∈ lab, (fun c => decide (c ≠ ',')) x = true := by
    intro x hx
    simp only [decide_eq_true_eq]
    intro hx2
    rw [hx2] at hx
    exact hnc hx
  have hhead : ∃ t2, tl = ',' :: t2 := by
    rcases htl with h | h <;> exact ⟨_, by rw [h]⟩
  obtain ⟨t2, ht2⟩ := hhead
  have htake : (lab ++ tl).takeWhile (fun c => decide (c ≠ ',')) = lab := by
    rw [takeWhile_append_of_all lab tl hall, ht2]
    simp [List.takeWhile_cons]
  have hdrop : (lab ++ tl).dropWhile (fun c => decide (c ≠ ',')) = tl := by
    rw [dropWhile_append_of_all lab tl hall, ht2]
    simp [List.dropWhile_cons]
  rw [rangeMatch]
  try dsimp only
  rw [htake, hdrop, if_pos ⟨hne, htl⟩]

lemma procBody_range_close (st : ExtractState) (uf nf ff : List Char) (lab : List Char)
    (s e : Int) (hr : st.rstart = some s) (hs : s ≠ 0) (hhex : hexVal uf = some e)
    (hnm : lowerStr nf = '<' :: (lab ++ (", last>").data)) (hlab : lab ≠ [])
    (hnc : ',' ∉ lab) :
    procBody st uf nf ff
      = maxUpd ⟨st.charlist ++ (xrangeInt s (e + 1)).map (fun u => mkcp u lab false),
          st.maxnamesize, none⟩ := by
  rw [procBody, hhex]
  try dsimp only
  rw [hnm]
  try dsimp only
  rw [if_pos rfl, hr]
  have htru : truthy (some s) = true := by simp [truthy, hs]
  rw [htru]
  try dsimp only
  rw [rangeMatch_build lab hlab hnc _ (Or.inr rfl)]
  simp

lemma procBody_range_open (st : ExtractState) (uf nf ff : List Char) (nrest : List Char)
    (e : Int) (hr : truthy st.rstart = false) (hhex : hexVal uf = some e)
    (hnm : lowerStr nf = '<' :: nrest) :
    procBody st uf nf ff = maxUpd ⟨st.charlist, st.maxnamesize, some e⟩ := by
  rw [procBody, hhex]
  try dsimp only
  rw [hnm]
  try dsimp only
  rw [if_pos rfl, hr]
  rfl

lemma procBody_normal (st : ExtractState) (uf nf ff : List Char) (v : Int) (c0 : Char)
    (nt : List Char) (hhex : hexVal uf = some v) (hnm : lowerStr nf = c0 :: nt)
    (hc0 : c0 ≠ '<') :
    procBody st uf nf ff
      = maxUpd ⟨st.charlist ++ [mkcp v (c0 :: nt) (ff == ('M' :: ['n']))],
          st.maxnamesize, st.rstart⟩ := by
  rw [procBody, hhex]
  try dsimp only
  rw [hnm]
  try dsimp only
  rw [if_neg hc0]

lemma xrangeInt_natCast (s e : Nat) :
    xrangeInt (s : Int) ((e : Int) + 1)
      = (List.range' s (e + 1 - s)).map (fun u : Nat => (u : Int)) := by
  rw [xrangeInt]
  have h1 : (((e : Int) + 1) - (s : Int)).toNat = e + 1 - s := by omega
  rw [h1, List.range'_eq_map_range, List.map_map]
  apply List.map_congr_left
  intro i _
  simp only [Function.comp_apply]
  push_cast
  ring

lemma xrange_map_mkcp (s e : Nat) (lab : List Char) :
    (xrangeInt (s : Int) ((e : Int) + 1)).map (fun u => mkcp u lab false)
      = (List.range' s (e + 1 - s)).map (fun u : Nat => mkcp (u : Int) lab false) := by
  rw [xrangeInt_natCast, List.map_map]
  rfl

/-! Claim theorems. -/

/-- C2: the heap builder processes records by name length from the maximum
down to 1, within each length in the records' original relative order; a
record whose name already occurs in the heap gets the first (leftmost)
matching position and the heap is unchanged, otherwise it gets the heap's
current length and the name is appended.  Stated as: the embedded builder
equals the algorithm transcribed from the spec text
(`specBuild` / `specLengthPass` / `specAssign` / `firstMatchPos`). -/
theorem heap_builder_matches_spec (m : Nat) (cs : List codepoint) (hp : List Char) :
    buildPasses m cs hp = specBuild m cs hp :=
  buildPasses_eq_specBuild m cs hp

/-- C9: the pipeline is a pure function of its input line stream, so two runs
on identical inputs produce identical output text. -/
theorem pipeline_deterministic (l1 l2 : List (List Char)) (h : l1 = l2) :
    pipeline l1 = pipeline l2 := by rw [h]

theorem pipeline_deterministic_witness :
    (([("41;AB;Lu").data] : List (List Char)) = [("41;AB;Lu").data]) ∧
    pipeline [("41;AB;Lu").data] = pipeline [("41;AB;Lu").data] :=
  ⟨rfl, pipeline_deterministic _ _ rfl⟩

/-- C7: a line whose flag tag starts with `C` followed by anything but `f`
produces no record (the state is returned untouched), while a line with flag
tag exactly `Cf`, a valid hex codepoint and a normal name appends exactly one
record (non-combining, since `Cf` is not `Mn`). -/
theorem control_filter_correct :
    (∀ (st : ExtractState) (uf nf : List Char) (f1 : Char) (ftl : List Char)
        (rest : List (List Char)), f1 ≠ 'f' →
      procLine st (uf :: nf :: ('C' :: f1 :: ftl) :: rest) = Except.ok st) ∧
    (∀ (st : ExtractState) (uf nf : List Char) (rest : List (List Char)) (v : Nat)
        (c0 : Char) (nt : List Char), hexVal uf = some v → lowerStr nf = c0 :: nt →
        c0 ≠ '<' →
      ∃ m2, procLine st (uf :: nf :: ('C' :: ['f']) :: rest)
        = Except.ok ⟨st.charlist ++ [mkcp v (c0 :: nt) false], m2, st.rstart⟩) := by
  constructor
  · intro st uf nf f1 ftl rest h
    exact procLine_skip st uf nf f1 ftl rest h
  · intro st uf nf rest v c0 nt hhex hnm hc0
    rw [procLine_proceed st uf nf _ rest (by decide),
      procBody_normal st uf nf _ (v : Int) c0 nt hhex hnm hc0]
    have hmn : ((('C' :: ['f']) : List Char) == ('M' :: ['n'])) = false := by decide
    rw [hmn]
    have hne : st.charlist ++ [mkcp v (c0 :: nt) false] ≠ [] := by simp
    exact maxUpd_ne_nil ⟨st.charlist ++ [mkcp v (c0 :: nt) false], st.maxnamesize, st.rstart⟩ hne

theorem control_filter_correct_witness :
    (procLine initState [("41").data, ("X").data, ("Cc").data] = Except.ok initState) ∧
    ∃ m2, procLine initState [("42").data, ("AB").data, ("Cf").data]
      = Except.ok ⟨[mkcp 66 ("ab").data false], m2, none⟩ := by
  constructor
  · exact control_filter_correct.1 initState (("41").data) (("X").data) 'c' [] [] (by decide)
  · obtain ⟨m2, hm⟩ := control_filter_correct.2 initState (("42").data) (("AB").data) []
      66 'a' ['b'] (by decide) (by decide) (by decide)
    exact ⟨m2, hm⟩

/-- C8: a truthy pending range start `s` closed by a matching `last` line at
codepoint `e ≥ s` appends exactly `e - s + 1` records with codepoints
`s, s+1, ..., e` in ascending order, all named the lowercased label and all
non-combining, and clears the pending state. -/
theorem range_expansion_correct (st : ExtractState) (uf nf ff : List Char)
    (rest : List (List Char)) (lab : List Char) (s e : Nat)
    (hr : st.rstart = some s) (hs : s ≠ 0) (hse : s ≤ e)
    (hff : proceedFlags ff = true) (hhex : hexVal uf = some e)
    (hnm : lowerStr nf = '<' :: (lab ++ (", last>").data))
    (hlab : lab ≠ []) (hnc : ',' ∉ lab) :
    (List.range' s (e + 1 - s)).length = e - s + 1 ∧
    ∃ m2, procLine st (uf :: nf :: ff :: rest)
      = Except.ok ⟨st.charlist
            ++ (List.range' s (e + 1 - s)).map (fun u : Nat => mkcp u lab false),
          m2, none⟩ := by
  constructor
  · rw [List.length_range']
    omega
  · rw [procLine_proceed st uf nf ff rest hff,
      procBody_range_close st uf nf ff lab (s : Int) (e : Int) hr
        (by exact_mod_cast hs) hhex hnm hlab hnc,
      xrange_map_mkcp s e lab]
    have hne : st.charlist
          ++ (List.range' s (e + 1 - s)).map (fun u : Nat => mkcp u lab false)
        ≠ [] := by
      intro hnil
      have hlen := congrArg List.length hnil
      simp only [List.length_append, List.length_map, List.length_range',
        List.length_nil] at hlen
      omega
    exact maxUpd_ne_nil
      ⟨st.charlist ++ (List.range' s (e + 1 - s)).map (fun u : Nat => mkcp u lab false),
        st.maxnamesize, none⟩ hne

theorem range_expansion_correct_witness :
    ((List.range' 256 (259 + 1 - 256)).length = 259 - 256 + 1) ∧
    ∃ m2, procLine ⟨[mkcp 65 ("ab").data false], 2, some 256⟩
        [("0103").data, ("<FOO, Last>").data, ("Lo").data]
      = Except.ok ⟨[mkcp 65 ("ab").data false]
          ++ (List.range' 256 (259 + 1 - 256)).map (fun u : Nat => mkcp u (("foo").data) false),
          m2, none⟩ :=
  range_expansion_correct ⟨[mkcp 65 ("ab").data false], 2, some 256⟩
    (("0103").data) (("<FOO, Last>").data) (("Lo").data) [] (("foo").data) 256 259
    rfl (by decide) (by decide) (by decide) (by decide) (by decide) (by decide) (by decide)

/-- C10: the pending-range test is on the truthiness of the stored codepoint:
a `first` line at codepoint 0 stores `rstart = 0`, and the matching `last`
line then sees a falsy pending state, emits no records and is itself recorded
as the new pending range start. -/
theorem rstart_zero_truthiness :
    (∀ (st : ExtractState) (uf nf ff : List Char) (rest : List (List Char))
        (nrest : List Char),
        st.rstart = none → proceedFlags ff = true → hexVal uf = some 0 →
        lowerStr nf = '<' :: nrest → st.charlist ≠ [] →
        ∃ m2, procLine st (uf :: nf :: ff :: rest) = Except.ok ⟨st.charlist, m2, some 0⟩) ∧
    (∀ (st : ExtractState) (uf nf ff : List Char) (rest : List (List Char))
        (nrest : List Char) (e : Nat),
        st.rstart = some 0 → proceedFlags ff = true → hexVal uf = some e →
        lowerStr nf = '<' :: nrest → st.charlist ≠ [] →
        ∃ m2, procLine st (uf :: nf :: ff :: rest) = Except.ok ⟨st.charlist, m2, some e⟩) := by
  constructor
  · intro st uf nf ff rest nrest hr hff hhex hnm hne
    rw [procLine_proceed st uf nf ff rest hff,
      procBody_range_open st uf nf ff nrest 0 (by rw [hr]; rfl) hhex hnm]
    exact maxUpd_ne_nil ⟨st.charlist, st.maxnamesize, some 0⟩ hne
  · intro st uf nf ff rest nrest e hr hff hhex hnm hne
    rw [procLine_proceed st uf nf ff rest hff,
      procBody_range_open st uf nf ff nrest (e : Int) (by rw [hr]; rfl) hhex hnm]
    exact maxUpd_ne_nil ⟨st.charlist, st.maxnamesize, some e⟩ hne

theorem rstart_zero_truthiness_witness :
    (∃ m2, procLine ⟨[mkcp 65 ("ab").data false], 2, none⟩
        [("0000").data, ("<Z, First>").data, ("Lo").data]
      = Except.ok ⟨[mkcp 65 ("ab").data false], m2, some 0⟩) ∧
    (∃ m2, procLine ⟨[mkcp 65 ("ab").data false], 2, some 0⟩
        [("0005").data, ("<Z, Last>").data, ("Lo").data]
      = Except.ok ⟨[mkcp 65 ("ab").data false], m2, some 5⟩) :=
  ⟨rstart_zero_truthiness.1 ⟨[mkcp 65 ("ab").data false], 2, none⟩
      (("0000").data) (("<Z, First>").data) (("Lo").data) [] (("z, first>").data)
      rfl (by decide) (by decide) (by decide) (by decide),
    rstart_zero_truthiness.2 ⟨[mkcp 65 ("ab").data false], 2, some 0⟩
      (("0005").data) (("<Z, Last>").data) (("Lo").data) [] (("z, last>").data) 5
      rfl (by decide) (by decide) (by decide) (by decide)⟩

/-- C5 is false on the code: an unpaired `last` range line with no pending
`first` does not terminate the run; it is silently recorded as a new pending
range start and the run keeps producing records.  Concretely, this two-line
input succeeds with the `last` codepoint 0x42 stored as `rstart`. -/
theorem unpaired_last_counterexample :
    extract [("0041;LATIN CAPITAL LETTER A;Lu").data, ("0042;<FOO, LAST>;Lu").data]
        = Except.ok ⟨[mkcp 65 ("latin capital letter a").data false], 22, some 66⟩ ∧
    ((pipeline [("0041;LATIN CAPITAL LETTER A;Lu").data,
        ("0042;<FOO, LAST>;Lu").data]).toOption).isSome = true := by
  constructor
  · decide
  · decide

/-- C5 (amended): a `last` range line with no pending `first` is silently
treated as a new pending range start (no records emitted, no error); it is
fatal only when no record has been emitted yet, through the `IndexError` of
the running-maximum update reading the last record. -/
theorem unpaired_last_amended (st : ExtractState) (uf nf ff : List Char)
    (rest : List (List Char)) (lab : List Char) (e : Nat)
    (hr : st.rstart = none) (hff : proceedFlags ff = true) (hhex : hexVal uf = some e)
    (hnm : lowerStr nf = '<' :: (lab ++ (", last>").data)) :
    (st.charlist = [] → procLine st (uf :: nf :: ff :: rest) = Except.error PyErr.indexErr) ∧
    (st.charlist ≠ [] →
      ∃ m2, procLine st (uf :: nf :: ff :: rest) = Except.ok ⟨st.charlist, m2, some e⟩) := by
  constructor
  · intro hnil
    rw [procLine_proceed st uf nf ff rest hff,
      procBody_range_open st uf nf ff _ (e : Int) (by rw [hr]; rfl) hhex hnm]
    exact maxUpd_err ⟨st.charlist, st.maxnamesize, some (e : Int)⟩ hnil
  · intro hne
    rw [procLine_proceed st uf nf ff rest hff,
      procBody_range_open st uf nf ff _ (e : Int) (by rw [hr]; rfl) hhex hnm]
    exact maxUpd_ne_nil ⟨st.charlist, st.maxnamesize, some (e : Int)⟩ hne

theorem unpaired_last_amended_witness :
    (((⟨[], 0, none⟩ : ExtractState).charlist = []) →
      procLine ⟨[], 0, none⟩ [("0042").data, ("<FOO, LAST>").data, ("Lu").data]
        = Except.error PyErr.indexErr) ∧
    (((⟨[], 0, none⟩ : ExtractState).charlist ≠ []) →
      ∃ m2, procLine ⟨[], 0, none⟩ [("0042").data, ("<FOO, LAST>").data, ("Lu").data]
        = Except.ok ⟨([] : List codepoint), m2, some 66⟩) :=
  unpaired_last_amended ⟨[], 0, none⟩ (("0042").data) (("<FOO, LAST>").data)
    (("Lu").data) [] (("foo").data) 66 rfl (by decide) (by decide) (by decide)

/-! Fatal-line machinery for the malformed-input claim. -/

/-- C4 is false on the code: the heap-building loop runs sizes
`maxnamesize .. 1` and never visits size 0, so a zero-length-name record's
`nameoffset` stays `None` (not 0) even though the heap is nonempty. -/
theorem empty_name_counterexample :
    ((buildPasses 3 [mkcp 65 ("abc").data false, mkcp 66 [] false] []).1.map
        (fun c => c.nameoffset)) = [some 0, none] ∧
    (buildPasses 3 [mkcp 65 ("abc").data false, mkcp 66 [] false] []).2 ≠ [] := by
  constructor
  · decide
  · decide

/-- C4 (amended): a record whose name has length 0 is never processed by the
heap builder: the record (in particular its unset `nameoffset`, and its
`namesize` 0) is returned unchanged, and zero-length records never contribute
to the heap (removing them all leaves the final heap unchanged). -/
theorem empty_name_amended (m : Nat) (cs : List codepoint) (hp : List Char) (k : Nat)
    (c : codepoint) (hk : cs.get? k = some c) (h0 : c.namesize = 0) :
    (buildPasses m cs hp).1.get? k = some c ∧
    (buildPasses m cs hp).2 = (buildPasses m (cs.filter (fun d => d.namesize != 0)) hp).2 := by
  constructor
  · obtain ⟨hklt, hgetc⟩ := List.get?_eq_some.mp hk
    have hall := (buildPasses_main m cs hp).2
    rw [List.forall₂_iff_get] at hall
    obtain ⟨hlen, hget⟩ := hall
    have hklt2 : k < (buildPasses m cs hp).1.length := by omega
    have hrel := hget k hklt hklt2
    have hunch : (buildPasses m cs hp).1.get ⟨k, hklt2⟩ = cs.get ⟨k, hklt⟩ :=
      hrel.2.2.2.1 (Or.inl (by rw [hgetc]; exact h0))
    exact List.get?_eq_some.mpr ⟨hklt2, by rw [hunch, hgetc]⟩
  · rw [buildPasses_filter_non0 m cs hp]

theorem empty_name_amended_witness :
    ((buildPasses 3 [mkcp 65 ("abc").data false, mkcp 66 [] false] []).1.get? 1
        = some (mkcp 66 [] false)) ∧
    (buildPasses 3 [mkcp 65 ("abc").data false, mkcp 66 [] false] []).2
      = (buildPasses 3 ([mkcp 65 ("abc").data false, mkcp 66 [] false].filter
          (fun d => d.namesize != 0)) []).2 :=
  empty_name_amended 3 [mkcp 65 ("abc").data false, mkcp 66 [] false] [] 1
    (mkcp 66 [] false) (by decide) (by decide)

/-- C1: after heap building completes, every extracted record has been given
a `nameoffset` such that `nameoffset + namesize` is within the heap and the
heap substring of length `namesize` at `nameoffset` is exactly the record's
original (lowercased) name.  Stated pairwise between the extracted records
and the heap builder's output records. -/
theorem heap_offsets_valid (lines : List (List Char)) (st : ExtractState)
    (hx : extract lines = Except.ok st) :
    List.Forall₂ (fun c c2 => ∃ o, c2.nameoffset = some o
        ∧ o + c.namesize ≤ (runHeapBuilder st).2.length
        ∧ ((runHeapBuilder st).2.drop o).take c.namesize = c.name)
      st.charlist (runHeapBuilder st).1 := by
  have hwf := extract_WF lines st hx
  have hall := (buildPasses_main st.maxnamesize st.charlist []).2
  rw [List.forall₂_iff_get] at hall ⊢
  obtain ⟨hlen, hget⟩ := hall
  refine ⟨hlen, ?_⟩
  intro i h1 h2
  obtain ⟨hns, hu, hc, hskip, hproc⟩ := hget i h1 h2
  have hcmem : st.charlist.get ⟨i, h1⟩ ∈ st.charlist := List.get_mem st.charlist i h1
  obtain ⟨hge1, hlem, hlenname⟩ := hwf _ hcmem
  obtain ⟨o, ho, holen, hocc⟩ := hproc hge1 hlem
  refine ⟨o, ho, ?_, ?_⟩
  · rw [hlenname] at holen
    exact holen
  · have htake := occ_take _ _ _ hocc
    rw [hlenname] at htake
    exact htake

theorem heap_offsets_valid_witness :
    List.Forall₂ (fun c c2 => ∃ o, c2.nameoffset = some o
        ∧ o + c.namesize
            ≤ (runHeapBuilder ⟨[mkcp 65 ("ab").data false, mkcp 66 ("b").data false],
                2, none⟩).2.length
        ∧ ((runHeapBuilder ⟨[mkcp 65 ("ab").data false, mkcp 66 ("b").data false],
              2, none⟩).2.drop o).take c.namesize = c.name)
      ((⟨[mkcp 65 ("ab").data false, mkcp 66 ("b").data false], 2, none⟩ :
          ExtractState)).charlist
      (runHeapBuilder ⟨[mkcp 65 ("ab").data false, mkcp 66 ("b").data false],
        2, none⟩).1 :=
  heap_offsets_valid [("41;AB;Lu").data, ("42;B;Lu").data] _ (by decide)

/-! Machinery and theorems for the substring-dedup claim. -/

lemma buildPasses_pos (s : Nat) (hs : 1 ≤ s) (cs : List codepoint) (hp : List Char) :
    buildPasses s cs hp = buildPasses (s - 1) (passOne s cs hp).1 (passOne s cs hp).2 := by
  obtain ⟨s2, rfl⟩ : ∃ s2, s = s2 + 1 := ⟨s - 1, by omega⟩
  simp only [Nat.add_sub_cancel]
  exact buildPasses_succ s2 cs hp

/-- C3 is false as stated: with records named `ba`, `ab`, `b` (in that order)
the name `b` is a substring of `ab` and `ab` is processed first, but the
leftmost occurrence of `b` in the heap `baab` is position 0, outside the span
of `ab` which starts at position 2, so `A.nameoffset ≤ B.nameoffset` fails
(2 ≤ 0 is false). -/
theorem dedup_span_counterexample :
    (("b").data <:+: ("ab").data) ∧
    ((buildPasses 2 [mkcp 1 ("ba").data false, mkcp 2 ("ab").data false,
        mkcp 3 ("b").data false] []).1.map (fun c => c.nameoffset))
      = [some 0, some 2, some 0] ∧
    (buildPasses 2 [mkcp 1 ("ba").data false, mkcp 2 ("ab").data false,
        mkcp 3 ("b").data false] []).2 = ("baab").data ∧
    ¬ (2 ≤ 0) := by
  refine ⟨by decide, by decide, by decide, by decide⟩

lemma dedup_core (m s : Nat) (cs : List codepoint) (ia ib : Nat)
    (hia : ia < cs.length) (hib : ib < cs.length) (A B : codepoint)
    (hAeq : cs.get ⟨ia, hia⟩ = A) (hBeq : cs.get ⟨ib, hib⟩ = B)
    (hs : B.namesize = s)
    (hwf : ∀ c ∈ cs, c.name.length = c.namesize)
    (hm : ∀ c ∈ cs, c.namesize ≤ m)
    (hBpos : 1 ≤ B.namesize)
    (hinf : B.name <:+: A.name)
    (horder : B.namesize < A.namesize ∨ (B.namesize = A.namesize ∧ ia < ib)) :
    ((passOne s ((passesDownTo m s cs []).1.take (ib + 1)) (passesDownTo m s cs []).2).2
      = (passOne s ((passesDownTo m s cs []).1.take ib) (passesDownTo m s cs []).2).2) ∧
    (∃ o oA rA rB, (buildPasses m cs []).1[ia]? = some rA
      ∧ (buildPasses m cs []).1[ib]? = some rB
      ∧ rA.nameoffset = some oA ∧ rB.nameoffset = some o
      ∧ o + B.namesize ≤ oA + A.namesize
      ∧ o + B.namesize ≤ (buildPasses m cs []).2.length
      ∧ ((buildPasses m cs []).2.drop o).take B.namesize = B.name) := by
  have hBmem : B ∈ cs := hBeq ▸ List.get_mem cs ib hib
  have hAmem : A ∈ cs := hAeq ▸ List.get_mem cs ia hia
  have hBlen : B.name.length = B.namesize := hwf B hBmem
  have hAlen : A.name.length = A.namesize := hwf A hAmem
  have hsm : s ≤ m := by have := hm B hBmem; omega
  have hs1 : 1 ≤ s := by omega
  have hAm : A.namesize ≤ m := hm A hAmem
  -- the state after the sweeps at sizes above s
  obtain ⟨⟨t0, ht0⟩, hallmid⟩ := passesDownTo_main m s cs []
  rw [List.forall₂_iff_get] at hallmid
  obtain ⟨hmlen, hmget⟩ := hallmid
  have hib1 : ib < (passesDownTo m s cs []).1.length := by omega
  have hia1 : ia < (passesDownTo m s cs []).1.length := by omega
  have hrelB := hmget ib hib hib1
  rw [hBeq] at hrelB
  have hmidB : (passesDownTo m s cs []).1.get ⟨ib, hib1⟩ = B :=
    hrelB.2.1 (by rintro ⟨hc1, _⟩; omega)
  -- the state after processing the first ib records of the sweep at size s
  obtain ⟨⟨tP, htP⟩, hallP⟩ := passOne_main s ((passesDownTo m s cs []).1.take ib)
    (passesDownTo m s cs []).2
  rw [List.forall₂_iff_get] at hallP
  obtain ⟨hPlen, hPget⟩ := hallP
  have hP0len : (passOne s ((passesDownTo m s cs []).1.take ib)
      (passesDownTo m s cs []).2).1.length = ib := by
    rw [← hPlen, List.length_take]
    omega
  -- the full sweep at size s
  obtain ⟨⟨tQ, htQ⟩, hallQ⟩ := passOne_main s (passesDownTo m s cs []).1
    (passesDownTo m s cs []).2
  rw [List.forall₂_iff_get] at hallQ
  obtain ⟨hQlen, hQget⟩ := hallQ
  have hia2 : ia < (passOne s (passesDownTo m s cs []).1
      (passesDownTo m s cs []).2).1.length := by omega
  -- record A: its occurrence is in the heap when B is reached, and its
  -- processed form sits at position ia of the sweep output
  have hAside : ∃ oA, (A.name <+: ((passOne s ((passesDownTo m s cs []).1.take ib)
        (passesDownTo m s cs []).2).2).drop oA)
      ∧ ∃ rA, (passOne s (passesDownTo m s cs []).1
            (passesDownTo m s cs []).2).1[ia]? = some rA
          ∧ rA.nameoffset = some oA ∧ s ≤ rA.namesize := by
    rcases horder with hlt | ⟨heq, hlt2⟩
    · have hrelA := hmget ia hia hia1
      rw [hAeq] at hrelA
      obtain ⟨oA, hoA, _, hoAocc⟩ := hrelA.2.2 (by omega) hAm
      have hoccA : A.name <+: ((passOne s ((passesDownTo m s cs []).1.take ib)
          (passesDownTo m s cs []).2).2).drop oA := by
        rw [htP]
        exact occ_append _ _ _ _ hoAocc
      have hrelQA := hQget ia hia1 hia2
      have hQA : (passOne s (passesDownTo m s cs []).1 (passesDownTo m s cs []).2).1.get
            ⟨ia, hia2⟩ = (passesDownTo m s cs []).1.get ⟨ia, hia1⟩ :=
        hrelQA.2.2.2.1 (by rw [hrelA.1]; omega)
      refine ⟨oA, hoccA, (passesDownTo m s cs []).1.get ⟨ia, hia1⟩, ?_, hoA, ?_⟩
      · rw [List.getElem?_eq_some]
        refine ⟨hia2, ?_⟩
        rw [← List.get_eq_getElem _ ⟨ia, hia2⟩]
        exact hQA
      · rw [hrelA.1]
        omega
    · have hrelA := hmget ia hia hia1
      rw [hAeq] at hrelA
      have hmidA : (passesDownTo m s cs []).1.get ⟨ia, hia1⟩ = A :=
        hrelA.2.1 (by rintro ⟨hc1, _⟩; omega)
      have hiaP : ia < ((passesDownTo m s cs []).1.take ib).length := by
        rw [List.length_take]
        omega
      have hiaP2 : ia < (passOne s ((passesDownTo m s cs []).1.take ib)
          (passesDownTo m s cs []).2).1.length := by
        rw [hP0len]
        omega
      have htakeA : ((passesDownTo m s cs []).1.take ib).get ⟨ia, hiaP⟩ = A := by
        have h1 : ((passesDownTo m s cs []).1.take ib)[ia]?
            = (passesDownTo m s cs []).1[ia]? := List.getElem?_take_of_lt hlt2
        rw [List.getElem?_eq_getElem hiaP, List.getElem?_eq_getElem hia1] at h1
        injection h1 with h2
        rw [List.get_eq_getElem, h2, ← List.get_eq_getElem _ ⟨ia, hia1⟩]
        exact hmidA
      have hrelPA := hPget ia hiaP hiaP2
      rw [htakeA] at hrelPA
      obtain ⟨oA, hoA, _, hoccA⟩ := hrelPA.2.2.2.2 (by omega)
      refine ⟨oA, hoccA, (passOne s ((passesDownTo m s cs []).1.take ib)
          (passesDownTo m s cs []).2).1.get ⟨ia, hiaP2⟩, ?_, hoA, ?_⟩
      · have hQsame : (passOne s (passesDownTo m s cs []).1
            (passesDownTo m s cs []).2).1[ia]?
            = (passOne s ((passesDownTo m s cs []).1.take ib)
                (passesDownTo m s cs []).2).1[ia]? := by
          conv_lhs =>
            rw [show (passesDownTo m s cs []).1
                = (passesDownTo m s cs []).1.take ib
                  ++ (passesDownTo m s cs []).1.drop ib from
                (List.take_append_drop ib (passesDownTo m s cs []).1).symm]
          rw [passOne_append]
          exact List.getElem?_append_left hiaP2
        rw [hQsame, List.getElem?_eq_getElem hiaP2]
        rw [← List.get_eq_getElem _ ⟨ia, hiaP2⟩]
      · rw [hrelPA.1]
        omega
  obtain ⟨oA, hoccA, rA, hQia, hrAoff, hrAns⟩ := hAside
  -- B's name occurs inside A's copy, so the search finds a position at or
  -- before it
  obtain ⟨pre, suf, hAname⟩ := hinf
  have hoccB : B.name <+: ((passOne s ((passesDownTo m s cs []).1.take ib)
      (passesDownTo m s cs []).2).2).drop (oA + pre.length) := by
    obtain ⟨r, hr⟩ := hoccA
    have hd : ((passOne s ((passesDownTo m s cs []).1.take ib)
          (passesDownTo m s cs []).2).2).drop (oA + pre.length)
        = (((passOne s ((passesDownTo m s cs []).1.take ib)
            (passesDownTo m s cs []).2).2).drop oA).drop pre.length :=
      (List.drop_drop pre.length oA _).symm
    rw [hd, ← hr, ← hAname]
    have hres : pre ++ B.name ++ suf ++ r = pre ++ (B.name ++ (suf ++ r)) := by
      simp [List.append_assoc]
    rw [hres, List.drop_left]
    exact List.prefix_append _ _
  obtain ⟨o, hfindB, holeA⟩ := findSub_le_of_occ _ B.name (oA + pre.length) hoccB
  obtain ⟨hoccBo, hoBle, _⟩ := findSub_eq_some _ B.name o hfindB
  -- conclusion 1: the heap does not change at B's step
  have htake1 : (passesDownTo m s cs []).1.take (ib + 1)
      = (passesDownTo m s cs []).1.take ib ++ [B] := by
    rw [List.take_succ]
    have hgb : (passesDownTo m s cs []).1[ib]? = some B := by
      rw [List.getElem?_eq_some]
      refine ⟨hib1, ?_⟩
      rw [← List.get_eq_getElem _ ⟨ib, hib1⟩]
      exact hmidB
    rw [hgb]
    rfl
  have hconc1 : (passOne s ((passesDownTo m s cs []).1.take (ib + 1))
        (passesDownTo m s cs []).2).2
      = (passOne s ((passesDownTo m s cs []).1.take ib)
          (passesDownTo m s cs []).2).2 := by
    rw [htake1, passOne_append]
    rw [passOne_cons_found s B [] _ o hs hfindB]
    rfl
  -- B's processed record sits at position ib of the sweep output
  have hdecomp : (passesDownTo m s cs []).1
      = (passesDownTo m s cs []).1.take ib
        ++ (B :: (passesDownTo m s cs []).1.drop (ib + 1)) := by
    conv_lhs => rw [← List.take_append_drop ib (passesDownTo m s cs []).1]
    congr 1
    rw [List.drop_eq_getElem_cons hib1]
    have hgetb : (passesDownTo m s cs []).1[ib] = B := by
      rw [← List.get_eq_getElem _ ⟨ib, hib1⟩]
      exact hmidB
    rw [hgetb]
  have hQsplit : passOne s (passesDownTo m s cs []).1 (passesDownTo m s cs []).2
      = ((passOne s ((passesDownTo m s cs []).1.take ib)
            (passesDownTo m s cs []).2).1
          ++ (passOne s (B :: (passesDownTo m s cs []).1.drop (ib + 1))
              (passOne s ((passesDownTo m s cs []).1.take ib)
                (passesDownTo m s cs []).2).2).1,
         (passOne s (B :: (passesDownTo m s cs []).1.drop (ib + 1))
            (passOne s ((passesDownTo m s cs []).1.take ib)
              (passesDownTo m s cs []).2).2).2) := by
    conv_lhs => rw [hdecomp]
    exact passOne_append s _ _ _
  have hBstep := passOne_cons_found s B ((passesDownTo m s cs []).1.drop (ib + 1))
    (passOne s ((passesDownTo m s cs []).1.take ib) (passesDownTo m s cs []).2).2 o hs hfindB
  have hQib : (passOne s (passesDownTo m s cs []).1
        (passesDownTo m s cs []).2).1[ib]?
      = some ⟨B.uchar, B.combining, [], B.namesize, some o⟩ := by
    rw [hQsplit]
    dsimp only
    rw [hBstep]
    dsimp only
    rw [List.getElem?_append_right hP0len.le, hP0len]
    simp
  -- the remaining sweeps leave both processed records untouched
  have hfin : buildPasses m cs []
      = buildPasses (s - 1)
          (passOne s (passesDownTo m s cs []).1 (passesDownTo m s cs []).2).1
          (passOne s (passesDownTo m s cs []).1 (passesDownTo m s cs []).2).2 := by
    rw [passesDownTo_split m s hsm cs [], buildPasses_pos s hs1]
  obtain ⟨⟨tF, htF⟩, hallF⟩ := buildPasses_main (s - 1)
    (passOne s (passesDownTo m s cs []).1 (passesDownTo m s cs []).2).1
    (passOne s (passesDownTo m s cs []).1 (passesDownTo m s cs []).2).2
  rw [List.forall₂_iff_get] at hallF
  obtain ⟨hFlen, hFget⟩ := hallF
  obtain ⟨hia3, hgetQia⟩ := List.getElem?_eq_some.mp hQia
  obtain ⟨hib3, hgetQib⟩ := List.getElem?_eq_some.mp hQib
  have hia4 : ia < (buildPasses (s - 1)
      (passOne s (passesDownTo m s cs []).1 (passesDownTo m s cs []).2).1
      (passOne s (passesDownTo m s cs []).1 (passesDownTo m s cs []).2).2).1.length := by
    omega
  have hib4 : ib < (buildPasses (s - 1)
      (passOne s (passesDownTo m s cs []).1 (passesDownTo m s cs []).2).1
      (passOne s (passesDownTo m s cs []).1 (passesDownTo m s cs []).2).2).1.length := by
    omega
  have hrelFA := hFget ia hia3 hia4
  have hrelFB := hFget ib hib3 hib4
  have hFA : (buildPasses (s - 1)
        (passOne s (passesDownTo m s cs []).1 (passesDownTo m s cs []).2).1
        (passOne s (passesDownTo m s cs []).1 (passesDownTo m s cs []).2).2).1.get
        ⟨ia, hia4⟩
      = (passOne s (passesDownTo m s cs []).1
          (passesDownTo m s cs []).2).1.get ⟨ia, hia3⟩ := by
    refine hrelFA.2.2.2.1 (Or.inr ?_)
    have h1 : (passOne s (passesDownTo m s cs []).1
        (passesDownTo m s cs []).2).1.get ⟨ia, hia3⟩ = rA := by
      rw [List.get_eq_getElem]
      exact hgetQia
    rw [h1]
    omega
  have hFB : (buildPasses (s - 1)
        (passOne s (passesDownTo m s cs []).1 (passesDownTo m s cs []).2).1
        (passOne s (passesDownTo m s cs []).1 (passesDownTo m s cs []).2).2).1.get
        ⟨ib, hib4⟩
      = (passOne s (passesDownTo m s cs []).1
          (passesDownTo m s cs []).2).1.get ⟨ib, hib3⟩ := by
    refine hrelFB.2.2.2.1 (Or.inr ?_)
    have h1 : (passOne s (passesDownTo m s cs []).1
        (passesDownTo m s cs []).2).1.get ⟨ib, hib3⟩
        = ⟨B.uchar, B.combining, [], B.namesize, some o⟩ := by
      rw [List.get_eq_getElem]
      exact hgetQib
    rw [h1]
    dsimp only
    omega
  have hfinA : (buildPasses m cs []).1[ia]? = some rA := by
    rw [hfin, List.getElem?_eq_some]
    refine ⟨hia4, ?_⟩
    rw [← List.get_eq_getElem _ ⟨ia, hia4⟩, hFA, List.get_eq_getElem]
    exact hgetQia
  have hfinB : (buildPasses m cs []).1[ib]?
      = some ⟨B.uchar, B.combining, [], B.namesize, some o⟩ := by
    rw [hfin, List.getElem?_eq_some]
    refine ⟨hib4, ?_⟩
    rw [← List.get_eq_getElem _ ⟨ib, hib4⟩, hFB, List.get_eq_getElem]
    exact hgetQib
  -- the final heap extends the heap B was matched against
  obtain ⟨tR, htR⟩ : ∃ t, (passOne s (passesDownTo m s cs []).1
        (passesDownTo m s cs []).2).2
      = (passOne s ((passesDownTo m s cs []).1.take ib)
          (passesDownTo m s cs []).2).2 ++ t := by
    rw [hQsplit]
    exact (passOne_main s (B :: (passesDownTo m s cs []).1.drop (ib + 1)) _).1
  obtain ⟨tFin, htFin⟩ : ∃ t, (buildPasses m cs []).2
      = (passOne s ((passesDownTo m s cs []).1.take ib)
          (passesDownTo m s cs []).2).2 ++ t := by
    rw [hfin, htF, htR]
    exact ⟨tR ++ tF, by rw [List.append_assoc]⟩
  have hlenA : pre.length + B.name.length + suf.length = A.name.length := by
    rw [← hAname]
    simp only [List.length_append]
  refine ⟨hconc1, o, oA, rA, ⟨B.uchar, B.combining, [], B.namesize, some o⟩,
    hfinA, hfinB, hrAoff, rfl, ?_, ?_, ?_⟩
  · omega
  · have h1 : o + B.name.length
        ≤ (passOne s ((passesDownTo m s cs []).1.take ib)
            (passesDownTo m s cs []).2).2.length :=
      occ_length_le _ _ _ hoBle hoccBo
    rw [htFin]
    simp only [List.length_append]
    omega
  · have hocc2 : B.name <+: ((buildPasses m cs []).2).drop o := by
      rw [htFin]
      exact occ_append _ _ _ _ hoccBo
    have htk := occ_take _ _ _ hocc2
    rw [hBlen] at htk
    exact htk

/-- C3 (amended): if B's name is an exact substring of A's name and A is
processed before B under the longest-first rule, then the heap is not grown
when B is processed, and B is assigned the leftmost occurrence of its name:
it satisfies the upper half of the span condition
(`B.nameOffset + B.nameLength ≤ A.nameOffset + A.nameLength`) and the heap
at B's offset spells B's name exactly — but B's offset may lie strictly
before A's span, so the claimed lower bound `A.nameOffset ≤ B.nameOffset`
does not hold in general (see the counterexample). -/
theorem dedup_substring_amended (m : Nat) (cs : List codepoint) (ia ib : Nat)
    (hia : ia < cs.length) (hib : ib < cs.length)
    (hwf : ∀ c ∈ cs, c.name.length = c.namesize)
    (hm : ∀ c ∈ cs, c.namesize ≤ m)
    (hBpos : 1 ≤ (cs.get ⟨ib, hib⟩).namesize)
    (hinf : (cs.get ⟨ib, hib⟩).name <:+: (cs.get ⟨ia, hia⟩).name)
    (horder : (cs.get ⟨ib, hib⟩).namesize < (cs.get ⟨ia, hia⟩).namesize
      ∨ ((cs.get ⟨ib, hib⟩).namesize = (cs.get ⟨ia, hia⟩).namesize ∧ ia < ib)) :
    ((passOne (cs.get ⟨ib, hib⟩).namesize
        ((passesDownTo m (cs.get ⟨ib, hib⟩).namesize cs []).1.take (ib + 1))
        (passesDownTo m (cs.get ⟨ib, hib⟩).namesize cs []).2).2
      = (passOne (cs.get ⟨ib, hib⟩).namesize
          ((passesDownTo m (cs.get ⟨ib, hib⟩).namesize cs []).1.take ib)
          (passesDownTo m (cs.get ⟨ib, hib⟩).namesize cs []).2).2) ∧
    (∃ o oA rA rB, (buildPasses m cs []).1[ia]? = some rA
      ∧ (buildPasses m cs []).1[ib]? = some rB
      ∧ rA.nameoffset = some oA ∧ rB.nameoffset = some o
      ∧ o + (cs.get ⟨ib, hib⟩).namesize ≤ oA + (cs.get ⟨ia, hia⟩).namesize
      ∧ o + (cs.get ⟨ib, hib⟩).namesize ≤ (buildPasses m cs []).2.length
      ∧ ((buildPasses m cs []).2.drop o).take (cs.get ⟨ib, hib⟩).namesize
          = (cs.get ⟨ib, hib⟩).name) :=
  dedup_core m (cs.get ⟨ib, hib⟩).namesize cs ia ib hia hib _ _ rfl rfl rfl
    hwf hm hBpos hinf horder

theorem dedup_substring_amended_witness :
    (1 ≤ (([mkcp 1 ("ab").data false, mkcp 2 ("b").data false].get
        ⟨1, by decide⟩).namesize)) ∧
    (((passOne (([mkcp 1 ("ab").data false, mkcp 2 ("b").data false].get
          ⟨1, by decide⟩).namesize)
        ((passesDownTo 2 (([mkcp 1 ("ab").data false, mkcp 2 ("b").data false].get
            ⟨1, by decide⟩).namesize)
          [mkcp 1 ("ab").data false, mkcp 2 ("b").data false] []).1.take (1 + 1))
        (passesDownTo 2 (([mkcp 1 ("ab").data false, mkcp 2 ("b").data false].get
            ⟨1, by decide⟩).namesize)
          [mkcp 1 ("ab").data false, mkcp 2 ("b").data false] []).2).2
      = (passOne (([mkcp 1 ("ab").data false, mkcp 2 ("b").data false].get
            ⟨1, by decide⟩).namesize)
          ((passesDownTo 2 (([mkcp 1 ("ab").data false, mkcp 2 ("b").data false].get
              ⟨1, by decide⟩).namesize)
            [mkcp 1 ("ab").data false, mkcp 2 ("b").data false] []).1.take 1)
          (passesDownTo 2 (([mkcp 1 ("ab").data false, mkcp 2 ("b").data false].get
              ⟨1, by decide⟩).namesize)
            [mkcp 1 ("ab").data false, mkcp 2 ("b").data false] []).2).2) ∧
    (∃ o oA rA rB,
      (buildPasses 2 [mkcp 1 ("ab").data false, mkcp 2 ("b").data false] []).1[0]?
          = some rA
      ∧ (buildPasses 2 [mkcp 1 ("ab").data false, mkcp 2 ("b").data false] []).1[1]?
          = some rB
      ∧ rA.nameoffset = some oA ∧ rB.nameoffset = some o
      ∧ o + (([mkcp 1 ("ab").data false, mkcp 2 ("b").data false].get
            ⟨1, by decide⟩).namesize)
          ≤ oA + (([mkcp 1 ("ab").data false, mkcp 2 ("b").data false].get
            ⟨0, by decide⟩).namesize)
      ∧ o + (([mkcp 1 ("ab").data false, mkcp 2 ("b").data false].get
            ⟨1, by decide⟩).namesize)
          ≤ (buildPasses 2 [mkcp 1 ("ab").data false, mkcp 2 ("b").data false] []).2.length
      ∧ ((buildPasses 2 [mkcp 1 ("ab").data false,
            mkcp 2 ("b").data false] []).2.drop o).take
            (([mkcp 1 ("ab").data false, mkcp 2 ("b").data false].get
              ⟨1, by decide⟩).namesize)
          = ([mkcp 1 ("ab").data false, mkcp 2 ("b").data false].get
              ⟨1, by decide⟩).name)) :=
  ⟨by decide,
    dedup_substring_amended 2 [mkcp 1 ("ab").data false, mkcp 2 ("b").data false] 0 1
      (by decide) (by decide) (by decide) (by decide) (by decide) (by decide)
      (Or.inl (by decide))⟩

end Mkcharlist
